import Mathlib

/-!
Verification of `mklaren/kernel/kernel.py` and `examples/lars/lars_mkl.py`
against their natural-language specification.  The Python code is shallowly
embedded: numpy values become an inductive type of scalars / dense / sparse
matrices with real entries, shape-checked operations return `Except`, and the
LARS-MKL routines become explicit state-passing functions.
-/

/-- Dynamically-shaped real matrix, the model of a 2-d `numpy.ndarray`.
Entries outside the `r × c` range are junk and never inspected. -/
structure Mat where
  r : ℕ
  c : ℕ
  f : ℕ → ℕ → ℝ

/-- Dynamically-shaped real vector, the model of a 1-d `numpy.ndarray`. -/
structure Vec where
  n : ℕ
  f : ℕ → ℝ

/-- Transpose (`x.T`). -/
def Mat.T (A : Mat) : Mat := ⟨A.c, A.r, fun i j => A.f j i⟩

/-- Matrix product (`A.dot(B)`); numpy raises when the inner shapes differ. -/
noncomputable def Mat.dot (A B : Mat) : Except String Mat :=
  if A.c = B.r then
    .ok ⟨A.r, B.c, fun i j => ∑ t ∈ Finset.range A.c, A.f i t * B.f t j⟩
  else .error "ValueError: shapes not aligned"

/-- Matrix–vector product (`A.dot(v)` for 1-d `v`). -/
noncomputable def Mat.dotv (A : Mat) (v : Vec) : Except String Vec :=
  if A.c = v.n then
    .ok ⟨A.r, fun i => ∑ t ∈ Finset.range A.c, A.f i t * v.f t⟩
  else .error "ValueError: shapes not aligned"

/-- Elementwise map over a matrix. -/
def Mat.emap (g : ℝ → ℝ) (A : Mat) : Mat := ⟨A.r, A.c, fun i j => g (A.f i j)⟩

/-- Scalar multiple of a matrix. -/
def Mat.scale (a : ℝ) (A : Mat) : Mat := ⟨A.r, A.c, fun i j => a * A.f i j⟩

/-- Elementwise difference of two vectors of the same length. -/
def Vec.sub (u v : Vec) : Vec := ⟨u.n, fun i => u.f i - v.f i⟩

/-- Elementwise sum of two vectors of the same length. -/
def Vec.add (u v : Vec) : Vec := ⟨u.n, fun i => u.f i + v.f i⟩

/-- Scalar multiple of a vector. -/
def Vec.scale (a : ℝ) (v : Vec) : Vec := ⟨v.n, fun i => a * v.f i⟩

/-- Squared Euclidean norm (`norm(v) ** 2`, exact in real arithmetic). -/
noncomputable def Vec.sqnorm (v : Vec) : ℝ := ∑ i ∈ Finset.range v.n, v.f i ^ 2

/-- Model of a Python value passed to the kernel functions of
`mklaren/kernel/kernel.py`: a Python `int` scalar, a Python `float` scalar,
a dense 2-d `numpy.ndarray`, or a scipy sparse matrix. -/
inductive NPVal where
  | pint (n : ℤ)
  | pfloat (x : ℝ)
  | dense (A : Mat)
  | sparse (A : Mat)

/-- Python `x * y` where `x` is an `int` scalar: scalar products and
numpy/scipy broadcasting of a scalar over an array. -/
def NPVal.smulInt (n : ℤ) : NPVal → NPVal
  | pint m => pint (n * m)
  | pfloat x => pfloat (n * x)
  | dense A => dense (Mat.scale (n : ℝ) A)
  | sparse A => sparse (Mat.scale (n : ℝ) A)

/-- Entry of a kernel-function result, for inspecting dense outputs;
returns junk (0) on errors and non-dense results. -/
def getEntry : Except String NPVal → ℕ → ℕ → ℝ
  | .ok (.dense A), i, j => A.f i j
  | _, _, _ => 0

/-- Model of `linear_kernel` (kernel.py, lines 11–30): dispatches on
`isinstance(x, int)`, then `sp.isspmatrix(x)`, else `x.dot(y.T)`.
A Python `float` has no `dot` attribute, and a Python scalar `y` has no
`T` attribute, so those dispatches fail with an `AttributeError`. -/
noncomputable def linear_kernel (x y : NPVal) : Except String NPVal :=
  match x with
  | .pint n => .ok (NPVal.smulInt n y)
  | .sparse A =>
      match y with
      | .dense B => (Mat.dot A B.T).map .dense
      | .sparse B => (Mat.dot A B.T).map .dense
      | _ => .error "AttributeError: int or float object has no attribute T"
  | .pfloat _ => .error "AttributeError: float object has no attribute dot"
  | .dense A =>
      match y with
      | .dense B => (Mat.dot A B.T).map .dense
      | .sparse B => (Mat.dot A B.T).map .dense
      | _ => .error "AttributeError: int or float object has no attribute T"

/-- Elementwise natural power of a Python/numpy value (`** p`). -/
def NPVal.powNat (p : ℕ) : NPVal → NPVal
  | pint m => pint (m ^ p)
  | pfloat x => pfloat (x ^ p)
  | dense A => dense (Mat.emap (· ^ p) A)
  | sparse A => sparse (Mat.emap (· ^ p) A)

/-- Python `x * y` for any scalar `x` (used by the shapeless branch of
`poly_kernel`); `x` is the real value of the scalar. -/
def NPVal.smulReal (a : ℝ) : NPVal → NPVal
  | pint m => pfloat (a * m)
  | pfloat x => pfloat (a * x)
  | dense A => dense (Mat.scale a A)
  | sparse A => sparse (Mat.scale a A)

/-- Model of `poly_kernel` (kernel.py, lines 33–55).  The bias parameter `b`
appears in the signature but in no branch of the body: the sparse branch
returns `(x·yᵀ)^p`, the shapeless branch `(x·y)^p`, and the generic dense
branch `(x·yᵀ)^p`. -/
noncomputable def poly_kernel (x y : NPVal) (p : ℕ := 2) (_b : ℝ := 0) :
    Except String NPVal :=
  match x with
  | .sparse A =>
      match y with
      | .dense B => (Mat.dot A B.T).map (fun C => NPVal.powNat p (.dense C))
      | .sparse B => (Mat.dot A B.T).map (fun C => NPVal.powNat p (.dense C))
      | _ => .error "AttributeError: int or float object has no attribute T"
  | .pint n => .ok (NPVal.powNat p (NPVal.smulInt n y))
  | .pfloat a => .ok (NPVal.powNat p (NPVal.smulReal a y))
  | .dense A =>
      match y with
      | .dense B => (Mat.dot A B.T).map (fun C => NPVal.powNat p (.dense C))
      | .sparse B => (Mat.dot A B.T).map (fun C => NPVal.powNat p (.dense C))
      | _ => .error "AttributeError: int or float object has no attribute T"

/-- Real value of a Python scalar (used after `not hasattr(x, "shape")`). -/
def NPVal.scalarVal : NPVal → ℝ
  | pint n => (n : ℝ)
  | pfloat x => x
  | dense _ => 0
  | sparse _ => 0

/-- Model of `sigmoid_kernel` (kernel.py, lines 58–81).  Both-sparse inputs
are densified first; the shapeless branch returns `tanh(b·x·y + c)` and the
generic branch `tanh(b·x·yᵀ + c)` — the code multiplies by `b` and adds `c`,
while the docstring names `c` the scale and `b` the bias. -/
noncomputable def sigmoid_kernel (x y : NPVal) (b : ℝ := 1) (c : ℝ := 0) :
    Except String NPVal :=
  let x' := match x, y with
    | .sparse A, .sparse _ => NPVal.dense A
    | _, _ => x
  let y' := match x, y with
    | .sparse _, .sparse B => NPVal.dense B
    | _, _ => y
  match x' with
  | .pint n =>
      match y' with
      | .pint m => .ok (.pfloat (Real.tanh (b * (n : ℝ) * (m : ℝ) + c)))
      | .pfloat u => .ok (.pfloat (Real.tanh (b * (n : ℝ) * u + c)))
      | .dense B => .ok (.dense (Mat.emap (fun a => Real.tanh (b * (n : ℝ) * a + c)) B))
      | .sparse _ => .error "NotImplementedError: adding a scalar to a sparse matrix"
  | .pfloat u =>
      match y' with
      | .pint m => .ok (.pfloat (Real.tanh (b * u * (m : ℝ) + c)))
      | .pfloat v => .ok (.pfloat (Real.tanh (b * u * v + c)))
      | .dense B => .ok (.dense (Mat.emap (fun a => Real.tanh (b * u * a + c)) B))
      | .sparse _ => .error "NotImplementedError: adding a scalar to a sparse matrix"
  | .dense A =>
      match y' with
      | .dense B => (Mat.dot A B.T).map (fun C => .dense (Mat.emap (fun a => Real.tanh (b * a + c)) C))
      | .sparse B => (Mat.dot A B.T).map (fun C => .dense (Mat.emap (fun a => Real.tanh (b * a + c)) C))
      | _ => .error "AttributeError: int or float object has no attribute T"
  | .sparse A =>
      match y' with
      | .dense B => (Mat.dot A B.T).map (fun C => .dense (Mat.emap (fun a => Real.tanh (b * a + c)) C))
      | .sparse B => (Mat.dot A B.T).map (fun C => .dense (Mat.emap (fun a => Real.tanh (b * a + c)) C))
      | _ => .error "AttributeError: int or float object has no attribute T"

/-- Centering matrix `I - 1·1ᵀ/m` built by `center_kernel` (kernel.py,
lines 227–230), with `m` the number of rows of `K`. -/
noncomputable def centerMat (n : ℕ) : Matrix (Fin n) (Fin n) ℝ :=
  1 - (n : ℝ)⁻¹ • Matrix.of (fun _ _ => (1 : ℝ))

/-- Model of `center_kernel` (kernel.py, lines 213–231):
`(I - 11ᵀ/m)·K·(I - 11ᵀ/m)`. -/
noncomputable def center_kernel {n : ℕ} (K : Matrix (Fin n) (Fin n) ℝ) :
    Matrix (Fin n) (Fin n) ℝ :=
  centerMat n * K * centerMat n

/-- Model of `center_kernel_low_rank` (kernel.py, lines 234–245):
`G - G.mean(axis=0)`, subtracting each column's mean from the column. -/
noncomputable def center_kernel_low_rank {n k : ℕ}
    (G : Matrix (Fin n) (Fin k) ℝ) : Matrix (Fin n) (Fin k) ℝ :=
  Matrix.of fun i j => G i j - (∑ t, G t j) / n

/-- Divisor matrix `Kn = sqrt(d·dᵀ)` built by `kernel_row_normalize`
(kernel.py, lines 257–258), where `d` is the diagonal of `K`. -/
noncomputable def krnDenom {n : ℕ} (K : Matrix (Fin n) (Fin n) ℝ) :
    Matrix (Fin n) (Fin n) ℝ :=
  Matrix.of fun i j => Real.sqrt (K i i * K j j)

/-- Model of `kernel_row_normalize` (kernel.py, lines 248–259): the
unguarded elementwise division `K / Kn`. -/
noncomputable def kernel_row_normalize {n : ℕ} (K : Matrix (Fin n) (Fin n) ℝ) :
    Matrix (Fin n) (Fin n) ℝ :=
  Matrix.of fun i j => K i j / krnDenom K i j

/-- Real positive-semidefiniteness of a square matrix: symmetric with
nonnegative quadratic form. -/
def IsPSD {n : ℕ} (K : Matrix (Fin n) (Fin n) ℝ) : Prop :=
  (∀ i j, K i j = K j i) ∧ ∀ x : Fin n → ℝ, 0 ≤ ∑ i, ∑ j, x i * K i j * x j

/-! Model of `examples/lars/lars_mkl.py`.  The numeric state is passed
explicitly; numpy shape errors and the `assert` statements become
`Except.error`. -/

/-- Columns `A[:, a:b]` (numpy slices clamp to the actual width). -/
def Mat.colRange (A : Mat) (a b : ℕ) : Mat :=
  ⟨A.r, min b A.c - min a A.c, fun i j => A.f i (min a A.c + j)⟩

/-- Columns `A[:, :t]`. -/
def Mat.firstCols (A : Mat) (t : ℕ) : Mat := ⟨A.r, min t A.c, A.f⟩

/-- Fancy column indexing `A[:, idx]`. -/
def Mat.selectCols (A : Mat) (idx : List ℕ) : Mat :=
  ⟨A.r, idx.length, fun i j => A.f i (idx.getD j 0)⟩

/-- Elementwise matrix difference (shapes agree at every use site). -/
def Mat.sub (A B : Mat) : Mat := ⟨A.r, A.c, fun i j => A.f i j - B.f i j⟩

/-- Positions `np.where(np.array(P) == k)[0]` of label `k` in `P`. -/
def maskIdx (P : List ℕ) (k : ℕ) : List ℕ :=
  (List.range P.length).filter (fun j => P.getD j 0 = k)

/-- Count `np.sum(P == k)` of label `k` in `P`. -/
def countEq (P : List ℕ) (k : ℕ) : ℕ := (P.filter (· = k)).length

/-- Distinct labels of `P` in order of first occurrence: the model of
`sorted(set(P), key=lambda p: np.argmax(P == p))`. -/
def firstOccs : List ℕ → List ℕ
  | [] => []
  | x :: xs => x :: firstOccs (xs.filter (· ≠ x))
  termination_by l => l.length
  decreasing_by
    simp only [List.length_cons]
    exact Nat.lt_succ_of_le (List.length_filter_le _ _)

/-- Loop state of `mkl_lars`: cumulative column count `t`, residual `r`,
fitted mean `mu`, and the path rows written so far. -/
structure LarsState where
  t : ℕ
  r : Vec
  mu : Vec
  rows : List Vec

/-- One iteration of the pair loop of `mkl_lars` (lars_mkl.py,
lines 154–164) for the consecutive kernel pair `(k1, k2)`. -/
noncomputable def mkl_lars_step (Q : Mat) (P : List ℕ) (f : ℕ → ℝ)
    (st : LarsState) (pair : ℕ × ℕ) : Except String LarsState := do
  let p1 := countEq P pair.1
  let p2 := countEq P pair.2
  let q1 ← Mat.dotv (Q.selectCols (maskIdx P pair.1)).T st.r
  let q2 ← Mat.dotv (Q.selectCols (maskIdx P pair.2)).T st.r
  let c1 := q1.sqnorm * f p1
  let c2 := q2.sqnorm * f p2
  if c2 ≤ c1 then
    let qr ← Mat.dotv Q.T st.r
    let row := Vec.scale (1 - Real.sqrt (c2 / c1)) qr
    let t' := st.t + p2
    let v ← Mat.dotv (Q.firstCols t') row
    .ok ⟨t', st.r.sub v, st.mu.add v, st.rows ++ [row]⟩
  else .error "AssertionError: c2 <= c1"

/-- Model of `mkl_lars` (lars_mkl.py, lines 144–171): the group-LARS path
over the kernel groups of `P`, followed by the final least-squares jump and
the `norm(Q.T.dot(r)) < 1e-3` assertion.  An empty `P` hits `korder[0]`. -/
noncomputable def mkl_lars (Q : Mat) (P : List ℕ) (y : Vec) (f : ℕ → ℝ) :
    Except String (List Vec × Vec) := do
  match firstOccs P with
  | [] => .error "IndexError: list index out of range"
  | k0 :: rest =>
    let init : LarsState := ⟨countEq P k0, y, ⟨Q.r, fun _ => 0⟩, []⟩
    let st ← (List.zip (k0 :: rest) rest).foldlM (mkl_lars_step Q P f) init
    let last ← Mat.dotv Q.T st.r
    let v ← Mat.dotv Q last
    let r' := st.r.sub v
    let mu' := st.mu.add v
    let qtr ← Mat.dotv Q.T r'
    if Real.sqrt qtr.sqnorm < 1e-3 then .ok (st.rows ++ [last], mu')
    else .error "AssertionError: norm(Q.T.dot(r)) < 1e-3"

/-- Squared norm `‖Q[:, P == k]ᵀ·y‖²` of a kernel group's correlation with
`y`, the quantity the `c1`/`c2` checks of `mkl_lars` compare at the initial
residual. -/
noncomputable def groupCorr (Q : Mat) (P : List ℕ) (y : Vec) (k : ℕ) : ℝ :=
  ∑ j ∈ Finset.range (countEq P k),
    (∑ i ∈ Finset.range Q.r, Q.f i ((maskIdx P k).getD j 0) * y.f i) ^ 2

/-! Model of `mkl_qr`.  The incremental factorization primitives
(`cholesky_steps`, `qr_steps`, `qr_reorder`, `qr_orient`) are code of this
repository that is not among the supplied sources; following §6 of the
specification they mutate their array arguments in place (so shapes are
preserved) and are modelled as opaque parameters returning the new entries
of the mutated buffers. -/

/-- Modelled from the spec: the external in-place primitives of
`examples/lars/cholesky.py` and `examples/lars/qr.py`, which are not in the
supplied sources.  `chol K G act ina start maxSteps order` extends factor
`G` using kernel matrix `K` and returns the new entries of `G` and the
updated active/inactive pools; `qrSteps G Q R maxSteps start qstart`
absorbs new columns of `G` into `(Q, R)`; `qrReorder Q R rank order`
permutes the first `rank` columns; `qrOrient Q R y` flips column signs.
Each returns only new entries for the buffers it mutates. -/
structure Externals where
  chol : Mat → Mat → List ℕ → List ℕ → ℕ → Option ℕ → Option (List ℕ) →
    ((ℕ → ℕ → ℝ) × List ℕ × List ℕ)
  qrSteps : Mat → Mat → Mat → ℕ → ℕ → ℕ → ((ℕ → ℕ → ℝ) × (ℕ → ℕ → ℝ))
  qrReorder : Mat → Mat → ℕ → List ℕ → ((ℕ → ℕ → ℝ) × (ℕ → ℕ → ℝ))
  qrOrient : Mat → Mat → Mat → ((ℕ → ℕ → ℝ) × (ℕ → ℕ → ℝ))

/-- Modelled from the spec: `mklaren.util.la.safe_divide`, not in the
supplied sources; §6 assumes elementwise division that returns 0 where the
divisor is zero. -/
noncomputable def safe_divide (a b : ℝ) : ℝ := if b = 0 then 0 else a / b

/-- Rounding to 5 decimal places (`np.round(B, 5)`). -/
noncomputable def round5 (x : ℝ) : ℝ := (round (x * 100000) : ℤ) / 100000

/-- Model of a numpy float that may be an infinity or NaN; the gain matrix
of `mkl_qr` holds `-inf` at masked positions. -/
inductive NPF where
  | ninf
  | val (x : ℝ)
  | pinf
  | nan

/-- IEEE `<` on model floats (comparisons with NaN are false). -/
def NPF.ltP : NPF → NPF → Prop
  | .ninf, .val _ => True
  | .ninf, .pinf => True
  | .val x, .val y => x < y
  | .val _, .pinf => True
  | _, _ => False

/-- Multiplication of a model float by a real scalar, IEEE signs. -/
noncomputable def NPF.mulR (a : ℝ) : NPF → NPF
  | .val x => .val (x * a)
  | .ninf => if 0 < a then .ninf else if a < 0 then .pinf else .nan
  | .pinf => if 0 < a then .pinf else if a < 0 then .ninf else .nan
  | .nan => .nan

/-- Addition of a real scalar to a model float. -/
def NPF.addR (b : ℝ) : NPF → NPF
  | .val x => .val (x + b)
  | a => a

open Classical in
/-- Index scan of `np.argmax`: keep the current maximum, replace on a
strictly greater candidate (first occurrence of the maximum wins). -/
noncomputable def npArgmaxAux : List NPF → ℕ → ℕ → NPF → ℕ
  | [], _, best, _ => best
  | a :: rest, i, best, bv =>
      if NPF.ltP bv a then npArgmaxAux rest (i + 1) i a
      else npArgmaxAux rest (i + 1) best bv

/-- Model of `np.argmax` on the flattened gain matrix (0 on the empty
array, which numpy rejects; never hit with a nonempty kernel list). -/
noncomputable def npArgmax : List NPF → ℕ
  | [] => 0
  | a :: rest => npArgmaxAux rest 1 0 a

/-- Quadratic form `G[i, :].T.dot(A).dot(G[i, :])` over row `i` of `G`. -/
noncomputable def quadForm (G : Mat) (i : ℕ) (A : Mat) : ℝ :=
  ∑ a ∈ Finset.range G.c, ∑ b ∈ Finset.range G.c, G.f i a * A.f a b * G.f i b

/-- Model of `zy2_app` (lars_mkl.py, lines 24–37): the approximate
`|<z, y>|^2` scores of every sample row of the look-ahead block `G`; all
`-inf` when `G` has no columns.  `y` and `QTY` are `(n, 1)` matrices, as
passed by `mkl_qr`. -/
noncomputable def zy2_app (G Q : Mat) (y QTY : Mat) :
    Except String (ℕ → NPF) := do
  if G.c = 0 then .ok (fun _ => NPF.ninf) else
  let GTY ← Mat.dot G.T y
  let GTQ ← Mat.dot G.T Q
  let M1 ← Mat.dot GTY GTY.T
  let M2 ← Mat.dot QTY GTY.T
  let M3 ← Mat.dot GTQ M2
  let A1 := M1.sub M3
  let GTG ← Mat.dot G.T G
  let M4 ← Mat.dot GTQ GTQ.T
  let A2 := GTG.sub M4
  .ok (fun i => NPF.val (safe_divide (quadForm G i A1) (round5 (quadForm G i A2))))

/-- Loop state of `mkl_qr`: the master factorization `(Q, R)`, the pivot
history `P`, and the per-kernel buffers and bookkeeping. -/
structure QrState where
  Q : Mat
  R : Mat
  P : List ℕ
  Gs : List Mat
  Acts : List (List ℕ)
  Inas : List (List ℕ)
  corr : List ℝ
  cost : List ℝ
  ncol : List ℕ

/-- Placeholder matrix for out-of-range list access (never hit on the
states reached by `mkl_qr`). -/
def dummyMat : Mat := ⟨0, 0, fun _ _ => 0⟩

/-- Gain rows of one `mkl_qr` step (lars_mkl.py, lines 76–87), one
length-`n` row per kernel: the look-ahead score for `delta > 0`, the
incomplete-Cholesky pivoting score for `delta = 0`, with already-active
pivots masked to `-inf`. -/
noncomputable def mkl_qr_gains (Ks : List Mat) (y : Mat) (delta : ℕ)
    (f : ℕ → ℝ) (st : QrState) : Except String (List (ℕ → NPF)) := do
  let step := st.P.length
  let Qa := st.Q.firstCols step
  let QTY ← Mat.dot Qa.T y
  (List.range Ks.length).mapM (fun j => do
    let G := st.Gs.getD j dummyMat
    let acts := st.Acts.getD j []
    if delta > 0 then
      let Ga := G.colRange step (step + delta)
      let zy2 ← zy2_app Ga Qa y QTY
      let f1 := f (st.ncol.getD j 0 + 1)
      let f0 := f (st.ncol.getD j 0)
      let c := st.corr.getD j 0
      .ok (fun i => if i ∈ acts then NPF.ninf
                    else ((zy2 i).mulR f1).addR ((f1 - f0) * c))
    else
      let K := Ks.getD j dummyMat
      .ok (fun i => if i ∈ acts then NPF.ninf
                    else NPF.val (K.f i i - ∑ t ∈ Finset.range G.c, (G.f i t) ^ 2)))

/-- Flattened row-major gain matrix, the argument of `np.argmax`. -/
def flattenGain (n : ℕ) (rows : List (ℕ → NPF)) : List NPF :=
  rows.flatMap (fun row => (List.range n).map row)

/-- Outcome of one `mkl_qr` iteration: stop the loop (zero maximal gain)
or continue with the next state. -/
inductive StepOut where
  | stop (st : QrState)
  | next (st : QrState)

/-- Squared Frobenius norm of `G[:, :m] - (Q·R)[:, idx]`, the quantity
whose square root the 1e-5 consistency assertions of `mkl_qr` bound. -/
noncomputable def cholQrGap (G QR : Mat) (m : ℕ) (idx : List ℕ) : ℝ :=
  ∑ i ∈ Finset.range G.r, ∑ j ∈ Finset.range m,
    (G.f i j - QR.f i (idx.getD j 0)) ^ 2

open Classical in
/-- One iteration of the selection loop of `mkl_qr` (lars_mkl.py,
lines 74–125): compute gains, select `(kern, pivot)` by `argmax`, stop on
an exactly-zero maximal gain, otherwise commit one Cholesky and one QR
step, refresh the look-ahead columns, and update the bookkeeping. -/
noncomputable def mkl_qr_step (ext : Externals) (Ks : List Mat) (y : Mat)
    (n delta : ℕ) (f : ℕ → ℝ) (st : QrState) : Except String StepOut := do
  let step := st.P.length
  let rows ← mkl_qr_gains Ks y delta f st
  let flat := flattenGain n rows
  let q := npArgmax flat
  let kern := q / n
  let pivot := q % n
  if flat.getD q NPF.nan = NPF.val 0 then .ok (.stop st) else
  if pivot ∈ st.Acts.getD kern [] then
    .error "AssertionError: pivot not in Acts"
  else
    let G := st.Gs.getD kern dummyMat
    let K := Ks.getD kern dummyMat
    let P' := st.P ++ [kern]
    let k_inx := maskIdx P' kern
    let k_num := k_inx.length
    let k_start := k_num - 1
    let G1 : Mat := ⟨G.r, G.c, fun i j => if k_start ≤ j then 0 else G.f i j⟩
    let res := ext.chol K G1 (st.Acts.getD kern []) (st.Inas.getD kern [])
      k_start none (some [pivot])
    let G2 : Mat := ⟨G.r, G.c, res.1⟩
    let qr := ext.qrSteps G2 st.Q st.R 1 k_start step
    let Q' : Mat := ⟨st.Q.r, st.Q.c, qr.1⟩
    let R' : Mat := ⟨st.R.r, st.R.c, qr.2⟩
    let QR ← Mat.dot Q' R'
    if Real.sqrt (cholQrGap G2 QR k_num k_inx) < 1e-5 then
      let maxSteps := min delta (G.c - k_num)
      let ina2 := (List.range n).filter (fun i => i ∉ res.2.1)
      let res2 := ext.chol K G2 res.2.1 ina2 k_num (some maxSteps) none
      let G3 : Mat := ⟨G.r, G.c, res2.1⟩
      if Real.sqrt (cholQrGap G3 QR k_num k_inx) < 1e-5 then
        let ncolNew := st.ncol.getD kern 0 + 1
        let corrNew := ∑ j ∈ Finset.range k_num,
          (∑ i ∈ Finset.range n, Q'.f i (k_inx.getD j 0) * y.f i 0) ^ 2
        .ok (.next ⟨Q', R', P', st.Gs.set kern G3,
          st.Acts.set kern res.2.1, st.Inas.set kern res.2.2,
          st.corr.set kern corrNew,
          st.cost.set kern (corrNew * f ncolNew),
          st.ncol.set kern ncolNew⟩)
      else .error "AssertionError: lookahead cholesky/qr agreement"
    else .error "AssertionError: cholesky/qr agreement"

/-- The selection loop of `mkl_qr`, run for up to `m` iterations; the
boolean records whether the loop stopped prematurely (gain exhaustion). -/
noncomputable def mkl_qr_loop (ext : Externals) (Ks : List Mat) (y : Mat)
    (n delta : ℕ) (f : ℕ → ℝ) : ℕ → QrState → Except String (QrState × Bool)
  | 0, st => .ok (st, false)
  | m + 1, st =>
      match mkl_qr_step ext Ks y n delta f st with
      | .error e => .error e
      | .ok (.stop st') => .ok (st', true)
      | .ok (.next st') => mkl_qr_loop ext Ks y n delta f m st'

/-- The first `m` iterations of the selection loop when each of them
continues; used to phrase hypotheses about reaching a given step. -/
noncomputable def mkl_qr_advance (ext : Externals) (Ks : List Mat) (y : Mat)
    (n delta : ℕ) (f : ℕ → ℝ) : ℕ → QrState → Option QrState
  | 0, st => some st
  | m + 1, st =>
      match mkl_qr_step ext Ks y n delta f st with
      | .ok (.next st') => mkl_qr_advance ext Ks y n delta f m st'
      | _ => none

/-- Stable insertion for descending argsort. -/
noncomputable def insertDesc (c : ℕ → ℝ) (i : ℕ) : List ℕ → List ℕ
  | [] => [i]
  | j :: rest => if c j < c i then i :: j :: rest else j :: insertDesc c i rest

/-- Model of `np.argsort(-cost)`: indices sorted by descending value
(ties keep index order; numpy leaves tie order unspecified). -/
noncomputable def argsortDesc (xs : List ℝ) : List ℕ :=
  (List.range xs.length).foldl (fun acc i => insertDesc (fun t => xs.getD t 0) i acc) []

/-- Initial state of `mkl_qr` (lars_mkl.py, lines 46–71): zero master
buffers and, for positive `delta`, `delta` unrestricted look-ahead Cholesky
steps per kernel. -/
noncomputable def mkl_qr_init (ext : Externals) (Ks : List Mat)
    (rank delta : ℕ) : QrState :=
  let k := Ks.length
  let n := (Ks.getD 0 dummyMat).r
  let bufs := Ks.map (fun K =>
    let G0 : Mat := ⟨n, rank + delta, fun _ _ => 0⟩
    if delta > 0 then
      let res := ext.chol K G0 [] (List.range n) 0 (some delta) none
      ((⟨n, rank + delta, res.1⟩ : Mat), res.2.1, res.2.2)
    else (G0, [], List.range n))
  ⟨⟨n, rank + k * delta, fun _ _ => 0⟩,
   ⟨rank + k * delta, rank + k * delta, fun _ _ => 0⟩,
   [], bufs.map (·.1), bufs.map (·.2.1), bufs.map (·.2.2),
   List.replicate k 0, List.replicate k 0, List.replicate k 0⟩

/-- Model of `mkl_qr` (lars_mkl.py, lines 40–141).  Returns the truncated
`(Q, R, P)` and the list of emitted warnings; configuration errors,
assertion failures and shape errors are `Except.error`. -/
noncomputable def mkl_qr (ext : Externals) (Ks : List Mat) (y : Mat)
    (rank delta : ℕ) (f : ℕ → ℝ) :
    Except String (Mat × Mat × List ℕ × List String) :=
  if delta = 1 then .error "ValueError: Unstable selection of delta. (delta = 1)" else
  match Ks with
  | [] => .error "IndexError: list index out of range"
  | K0 :: _ =>
    let n := K0.r
    let st0 := mkl_qr_init ext Ks rank delta
    match mkl_qr_loop ext Ks y n delta f rank st0 with
    | .error e => .error e
    | .ok (st, stopped) =>
      let rank' := if stopped then st.P.length else rank
      let warns := if stopped then ["Iterations ended prematurely"] else []
      let korder := argsortDesc st.cost
      let porder := korder.flatMap (fun j => maskIdx st.P j)
      let qr1 := ext.qrReorder st.Q st.R rank' porder
      let Q1 : Mat := ⟨st.Q.r, st.Q.c, qr1.1⟩
      let R1 : Mat := ⟨st.R.r, st.R.c, qr1.2⟩
      let qr2 := ext.qrOrient Q1 R1 y
      let Q2 : Mat := ⟨st.Q.r, st.Q.c, qr2.1⟩
      let R2 : Mat := ⟨st.R.r, st.R.c, qr2.2⟩
      if rank' = porder.length then
        .ok (Q2.firstCols rank',
             ⟨min rank' R2.r, min rank' R2.c, R2.f⟩,
             porder.map (fun i => st.P.getD i 0), warns)
      else .error "AssertionError: rank == len(porder)"

/-! Theorems. -/

/-- Strict monotonicity of the real hyperbolic tangent, via
`sinh (a - b) = sinh a · cosh b - cosh a · sinh b`. -/
theorem tanh_lt_tanh_aux {a b : ℝ} (h : a < b) : Real.tanh a < Real.tanh b := by
  rw [Real.tanh_eq_sinh_div_cosh, Real.tanh_eq_sinh_div_cosh,
    div_lt_div_iff₀ (Real.cosh_pos a) (Real.cosh_pos b)]
  have hs : Real.sinh (a - b) < 0 := Real.sinh_neg_iff.mpr (by linarith)
  have hsub := Real.sinh_sub a b
  nlinarith [hsub, hs]

/-- Claim C1, counterexample: at the scalar inputs `x = 2`, `y = 1` with the
default parameters `b = 1`, `c = 0`, `sigmoid_kernel` does not return
`tanh(c·x·y + b) = tanh 1`; it returns `tanh(b·x·y + c) = tanh 2`. -/
theorem sigmoid_kernel_swapped_cex :
    sigmoid_kernel (.pint 2) (.pint 1) 1 0 ≠
      .ok (.pfloat (Real.tanh (0 * (2 * 1) + 1))) := by
  intro h
  rw [show sigmoid_kernel (.pint 2) (.pint 1) 1 0 =
      .ok (.pfloat (Real.tanh (1 * ((2 : ℤ) : ℝ) * ((1 : ℤ) : ℝ) + 0))) from rfl] at h
  simp only [Except.ok.injEq, NPVal.pfloat.injEq] at h
  norm_num at h
  have := tanh_lt_tanh_aux (show (1 : ℝ) < 2 by norm_num)
  linarith

/-- Claim C1, amended: in every modelled branch (Python scalars, dense
matrices, densified sparse pairs) `sigmoid_kernel(x, y, b, c)` returns
`tanh(b·x·yᵀ + c)` elementwise — the roles of `b` and `c` are swapped
relative to the claim, so the defaults `b = 1`, `c = 0` give `tanh(x·yᵀ)`. -/
theorem sigmoid_kernel_formula :
    (∀ (v w : ℤ) (b c : ℝ), sigmoid_kernel (.pint v) (.pint w) b c =
      .ok (.pfloat (Real.tanh (b * (v : ℝ) * (w : ℝ) + c)))) ∧
    (∀ (x y b c : ℝ), sigmoid_kernel (.pfloat x) (.pfloat y) b c =
      .ok (.pfloat (Real.tanh (b * x * y + c)))) ∧
    (∀ (m d k : ℕ) (A B : ℕ → ℕ → ℝ) (b c : ℝ),
      sigmoid_kernel (.dense ⟨m, d, A⟩) (.dense ⟨k, d, B⟩) b c =
        .ok (.dense ⟨m, k, fun i j =>
          Real.tanh (b * (∑ t ∈ Finset.range d, A i t * B j t) + c)⟩)) ∧
    (∀ (m d k : ℕ) (A B : ℕ → ℕ → ℝ) (b c : ℝ),
      sigmoid_kernel (.sparse ⟨m, d, A⟩) (.sparse ⟨k, d, B⟩) b c =
        .ok (.dense ⟨m, k, fun i j =>
          Real.tanh (b * (∑ t ∈ Finset.range d, A i t * B j t) + c)⟩)) := by
  refine ⟨fun v w b c => rfl, fun x y b c => rfl, fun m d k A B b c => ?_,
    fun m d k A B b c => ?_⟩ <;>
    simp [sigmoid_kernel, Mat.dot, Mat.T, Mat.emap, Except.map]

/-- Claim C2, counterexample: in the generic dense branch with
`x = y = [[1]]`, `p = 2`, `b = 1`, the result entry is `(x·yᵀ)^p = 1`, not
`(b + x·yᵀ)^p = 4`: the bias is ignored in the dense branch as well. -/
theorem poly_kernel_bias_dense_cex :
    getEntry (poly_kernel (.dense ⟨1, 1, fun _ _ => 1⟩)
      (.dense ⟨1, 1, fun _ _ => 1⟩) 2 1) 0 0 = 1 ∧
    getEntry (poly_kernel (.dense ⟨1, 1, fun _ _ => 1⟩)
      (.dense ⟨1, 1, fun _ _ => 1⟩) 2 1) 0 0 ≠ ((1 : ℝ) + 1) ^ 2 := by
  constructor
  · simp [getEntry, poly_kernel, Mat.dot, Mat.T, Mat.emap, NPVal.powNat, Except.map]
  · simp only [getEntry, poly_kernel, Mat.dot, Mat.T, Mat.emap, NPVal.powNat, Except.map]
    norm_num

/-- Claim C2, amended: `poly_kernel` silently ignores the bias `b` in every
branch; the generic dense branch returns `(x·yᵀ)^p`, and changing `b`
never changes the result. -/
theorem poly_kernel_ignores_bias :
    (∀ (m d k : ℕ) (A B : ℕ → ℕ → ℝ) (p : ℕ) (b : ℝ),
      poly_kernel (.dense ⟨m, d, A⟩) (.dense ⟨k, d, B⟩) p b =
        .ok (.dense ⟨m, k, fun i j =>
          (∑ t ∈ Finset.range d, A i t * B j t) ^ p⟩)) ∧
    (∀ (x y : NPVal) (p : ℕ) (b b' : ℝ),
      poly_kernel x y p b = poly_kernel x y p b') := by
  refine ⟨fun m d k A B p b => ?_, fun x y p b b' => rfl⟩
  simp [poly_kernel, Mat.dot, Mat.T, Mat.emap, NPVal.powNat, Except.map]

/-- Claim C6, counterexample: for the real (non-`int`) scalar pair
`x = 2.0`, `y = 3.0`, `linear_kernel` does not return the scalar product
`6`; the scalar branch tests `isinstance(x, int)` only, so a float falls
through to `x.dot(y.T)` and fails with an `AttributeError`. -/
theorem linear_kernel_float_scalar_cex :
    linear_kernel (.pfloat 2) (.pfloat 3) ≠ .ok (.pfloat (2 * 3)) := by
  simp [linear_kernel]

/-- Claim C6, amended: `linear_kernel(x, y)` returns the scalar product
`x·y` for scalar inputs only when `x` is a Python `int` (with `y` an
integer or real scalar); when `x` is a real scalar the call raises an
`AttributeError` instead. -/
theorem linear_kernel_scalar :
    (∀ v w : ℤ, linear_kernel (.pint v) (.pint w) = .ok (.pint (v * w))) ∧
    (∀ (v : ℤ) (y : ℝ), linear_kernel (.pint v) (.pfloat y) =
      .ok (.pfloat (v * y))) ∧
    (∀ x y : ℝ, linear_kernel (.pfloat x) (.pfloat y) =
      .error "AttributeError: float object has no attribute dot") := by
  exact ⟨fun v w => rfl, fun v y => rfl, fun x y => rfl⟩

/-- Product of the all-ones matrix with itself. -/
theorem onesMat_mul_onesMat (n : ℕ) :
    (Matrix.of (fun _ _ => (1 : ℝ)) : Matrix (Fin n) (Fin n) ℝ) *
      Matrix.of (fun _ _ => (1 : ℝ)) = (n : ℝ) • Matrix.of (fun _ _ => (1 : ℝ)) := by
  ext i j
  simp [Matrix.mul_apply]

/-- The centering matrix `I - 11ᵀ/m` is idempotent (also for `m = 0`,
where it degenerates to the identity since `(0 : ℝ)⁻¹ = 0`). -/
theorem centerMat_idem (n : ℕ) : centerMat n * centerMat n = centerMat n := by
  have hc : ((n : ℝ)⁻¹ * (n : ℝ)⁻¹) * (n : ℝ) = (n : ℝ)⁻¹ := by
    rcases eq_or_ne (n : ℝ) 0 with h | h
    · simp [h]
    · field_simp
  unfold centerMat
  rw [sub_mul, mul_sub, mul_sub, one_mul, one_mul, mul_one, smul_mul_assoc,
    mul_smul_comm, onesMat_mul_onesMat, smul_smul, smul_smul, hc]
  abel

/-- Claim C7: `center_kernel` is idempotent in exact real arithmetic:
double-centering an already centered kernel changes nothing. -/
theorem center_kernel_idempotent {n : ℕ} (K : Matrix (Fin n) (Fin n) ℝ) :
    center_kernel (center_kernel K) = center_kernel K := by
  unfold center_kernel
  simp only [← Matrix.mul_assoc]
  rw [centerMat_idem, Matrix.mul_assoc (centerMat n * K), centerMat_idem]

/-- Column-mean centering of `G` equals left multiplication by the
centering matrix. -/
theorem center_kernel_low_rank_eq_mul {n k : ℕ} (G : Matrix (Fin n) (Fin k) ℝ) :
    center_kernel_low_rank G = centerMat n * G := by
  ext i j
  simp only [center_kernel_low_rank, centerMat, Matrix.of_apply, Matrix.mul_apply,
    Matrix.sub_apply, Matrix.one_apply, Matrix.smul_apply, smul_eq_mul, sub_mul]
  rw [Finset.sum_sub_distrib]
  simp [Finset.sum_ite_eq, ← Finset.mul_sum, inv_mul_eq_div, Finset.sum_div]

/-- The centering matrix is symmetric. -/
theorem centerMat_transpose (n : ℕ) : (centerMat n).transpose = centerMat n := by
  unfold centerMat
  rw [Matrix.transpose_sub, Matrix.transpose_one, Matrix.transpose_smul]
  rfl

/-- Claim C8: double-centering the kernel induced by a feature matrix `G`
agrees exactly with forming the kernel of the column-centered features:
`center_kernel (G·Gᵀ) = center_kernel_low_rank(G) · center_kernel_low_rank(G)ᵀ`. -/
theorem center_kernel_low_rank_consistent {n k : ℕ} (G : Matrix (Fin n) (Fin k) ℝ) :
    center_kernel (G * G.transpose) =
      center_kernel_low_rank G * (center_kernel_low_rank G).transpose := by
  rw [center_kernel_low_rank_eq_mul, Matrix.transpose_mul, centerMat_transpose,
    center_kernel]
  simp only [Matrix.mul_assoc]

/-- Claim C4: `mkl_qr` with `delta = 1` fails with the configuration error
before any computation: the result is this error for every choice of the
external primitives, kernel list, response, rank and penalty. -/
theorem mkl_qr_delta_one_error (ext : Externals) (Ks : List Mat) (y : Mat)
    (rank : ℕ) (f : ℕ → ℝ) :
    mkl_qr ext Ks y rank 1 f =
      .error "ValueError: Unstable selection of delta. (delta = 1)" := rfl

/-- Sum of a function supported on the two distinct indices `i` and `j`. -/
theorem sum_double_ite {n : ℕ} (i j : Fin n) (hij : i ≠ j) (f g : Fin n → ℝ) :
    (∑ t, if t = i then f t else if t = j then g t else 0) = f i + g j := by
  have hsplit : ∀ t, (if t = i then f t else if t = j then g t else 0) =
      (if t = i then f t else 0) + (if t = j then g t else 0) := by
    intro t
    by_cases h1 : t = i
    · subst h1
      simp [hij]
    · by_cases h2 : t = j
      · subst h2
        simp [h1]
      · simp [h1, h2]
  rw [Finset.sum_congr rfl (fun t _ => hsplit t), Finset.sum_add_distrib]
  simp [Finset.sum_ite_eq']

/-- Quadratic form of `K` at the vector supported on `i` and `j`. -/
theorem quad_expand {n : ℕ} (K : Matrix (Fin n) (Fin n) ℝ) (i j : Fin n)
    (hij : i ≠ j) (a b : ℝ) :
    (∑ s, ∑ t, (if s = i then a else if s = j then b else 0) * K s t *
      (if t = i then a else if t = j then b else 0)) =
    K i i * a * a + K i j * a * b + K j i * b * a + K j j * b * b := by
  have hinner : ∀ s, (∑ t, (if s = i then a else if s = j then b else 0) * K s t *
      (if t = i then a else if t = j then b else 0)) =
      (if s = i then a else if s = j then b else 0) * (K s i * a + K s j * b) := by
    intro s
    have : (∑ t, (if s = i then a else if s = j then b else 0) * K s t *
        (if t = i then a else if t = j then b else 0)) =
        (∑ t, if t = i then (if s = i then a else if s = j then b else 0) * K s t * a
          else if t = j then (if s = i then a else if s = j then b else 0) * K s t * b
          else 0) := by
      refine Finset.sum_congr rfl (fun t _ => ?_)
      by_cases h1 : t = i <;> by_cases h2 : t = j <;> simp [h1, h2]
    rw [this, sum_double_ite i j hij]
    ring
  rw [Finset.sum_congr rfl (fun s _ => hinner s)]
  have : (∑ s, (if s = i then a else if s = j then b else 0) * (K s i * a + K s j * b)) =
      (∑ s, if s = i then a * (K s i * a + K s j * b)
        else if s = j then b * (K s i * a + K s j * b) else 0) := by
    refine Finset.sum_congr rfl (fun s _ => ?_)
    by_cases h1 : s = i <;> by_cases h2 : s = j <;> simp [h1, h2]
  rw [this, sum_double_ite i j hij]
  ring

/-- Discriminant bound for an everywhere-nonnegative binary quadratic form. -/
theorem quadratic_nonneg {A B C : ℝ}
    (h : ∀ a b : ℝ, 0 ≤ A * a ^ 2 + 2 * B * (a * b) + C * b ^ 2) :
    B ^ 2 ≤ A * C := by
  have hA : 0 ≤ A := by have := h 1 0; nlinarith [this]
  have hC : 0 ≤ C := by have := h 0 1; nlinarith [this]
  rcases eq_or_lt_of_le hA with hA0 | hApos
  · have hB : B = 0 := by
      by_contra hB
      have hmain := h (-(C + 1) / (2 * B)) 1
      rw [← hA0] at hmain
      field_simp at hmain
      nlinarith [hmain]
    rw [← hA0, hB]
    norm_num
  · have hmain := h B (-A)
    nlinarith [hmain, hApos, mul_pos hApos hApos]

/-- The binary quadratic form carved out of a PSD matrix is nonnegative. -/
theorem psd_quad {n : ℕ} {K : Matrix (Fin n) (Fin n) ℝ} (h : IsPSD K)
    (i j : Fin n) (hij : i ≠ j) (a b : ℝ) :
    0 ≤ K i i * a ^ 2 + 2 * K i j * (a * b) + K j j * b ^ 2 := by
  have h2 := h.2 (fun t => if t = i then a else if t = j then b else 0)
  rw [quad_expand K i j hij a b] at h2
  have hsym := h.1 i j
  rw [← hsym] at h2
  nlinarith [h2]

/-- Cauchy–Schwarz for PSD matrices: `K[i,j]² ≤ K[i,i]·K[j,j]`. -/
theorem psd_entry_sq_le {n : ℕ} {K : Matrix (Fin n) (Fin n) ℝ} (h : IsPSD K)
    (i j : Fin n) : (K i j) ^ 2 ≤ K i i * K j j := by
  by_cases hij : i = j
  · subst hij; rw [sq]
  · exact quadratic_nonneg (psd_quad h i j hij)

/-- Claim C9, counterexample: the 1×1 zero matrix is PSD, yet
`kernel_row_normalize` does not give it a unit diagonal — the diagonal
entry is produced by a division by zero (`0` in the exact model, NaN in
floating point), not `1`. -/
theorem kernel_row_normalize_zero_diag_cex :
    IsPSD (0 : Matrix (Fin 1) (Fin 1) ℝ) ∧
    kernel_row_normalize (0 : Matrix (Fin 1) (Fin 1) ℝ) 0 0 ≠ 1 := by
  constructor
  · exact ⟨fun i j => rfl, fun x => by simp⟩
  · show (0 : Matrix (Fin 1) (Fin 1) ℝ) 0 0 / krnDenom 0 0 0 ≠ 1
    norm_num [krnDenom]

/-- Claim C9, amended: for every PSD matrix `K` whose diagonal entries are
all strictly positive, `kernel_row_normalize(K)` has entries
`K[i,j]/sqrt(K[i,i]·K[j,j])`, unit diagonal, and all entries in `[-1, 1]`. -/
theorem kernel_row_normalize_psd_bounds {n : ℕ} (K : Matrix (Fin n) (Fin n) ℝ)
    (hpsd : IsPSD K) (hdiag : ∀ i, 0 < K i i) :
    (∀ i j, kernel_row_normalize K i j = K i j / Real.sqrt (K i i * K j j)) ∧
    (∀ i, kernel_row_normalize K i i = 1) ∧
    (∀ i j, -1 ≤ kernel_row_normalize K i j ∧ kernel_row_normalize K i j ≤ 1) := by
  refine ⟨fun i j => rfl, fun i => ?_, fun i j => ?_⟩
  · show K i i / Real.sqrt (K i i * K i i) = 1
    rw [Real.sqrt_mul_self (le_of_lt (hdiag i))]
    exact div_self (ne_of_gt (hdiag i))
  · have hD : 0 < Real.sqrt (K i i * K j j) :=
      Real.sqrt_pos.mpr (mul_pos (hdiag i) (hdiag j))
    have habs : |K i j| ≤ Real.sqrt (K i i * K j j) := by
      rw [← Real.sqrt_sq_eq_abs]
      exact Real.sqrt_le_sqrt (psd_entry_sq_le hpsd i j)
    have : |kernel_row_normalize K i j| ≤ 1 := by
      show |K i j / krnDenom K i j| ≤ 1
      rw [abs_div, show krnDenom K i j = Real.sqrt (K i i * K j j) from rfl,
        abs_of_pos hD]
      exact (div_le_one hD).mpr habs
    exact abs_le.mp this

/-- Claim C9, witness: the amended theorem applied to the 1×1 identity. -/
theorem kernel_row_normalize_psd_bounds_witness :
    IsPSD (1 : Matrix (Fin 1) (Fin 1) ℝ) ∧
    kernel_row_normalize (1 : Matrix (Fin 1) (Fin 1) ℝ) 0 0 = 1 ∧
    -1 ≤ kernel_row_normalize (1 : Matrix (Fin 1) (Fin 1) ℝ) 0 0 := by
  have hpsd : IsPSD (1 : Matrix (Fin 1) (Fin 1) ℝ) := by
    refine ⟨fun i j => ?_, fun x => ?_⟩
    · fin_cases i <;> fin_cases j <;> rfl
    · simp [Fin.sum_univ_one, Matrix.one_apply]
      exact mul_self_nonneg (x 0)
  have h := kernel_row_normalize_psd_bounds (1 : Matrix (Fin 1) (Fin 1) ℝ) hpsd
    (fun i => by simp)
  exact ⟨hpsd, h.2.1 0, (h.2.2 0 0).1⟩

/-- Claim C10: `kernel_row_normalize` divides by `Kn[i,j] = sqrt(K[i,i]·K[j,j])`
with no guard: when every diagonal entry is strictly positive every divisor
is strictly positive, and when `K[i,i] = 0` every divisor of row `i` and of
column `i` is exactly zero, so those entries are produced by a division by
zero rather than by an error or a safe default. -/
theorem kernel_row_normalize_no_guard {n : ℕ} (K : Matrix (Fin n) (Fin n) ℝ) :
    (∀ i j, kernel_row_normalize K i j = K i j / krnDenom K i j) ∧
    ((∀ i, 0 < K i i) → ∀ i j, 0 < krnDenom K i j) ∧
    (∀ i, K i i = 0 → ∀ j, krnDenom K i j = 0 ∧ krnDenom K j i = 0) := by
  refine ⟨fun i j => rfl, fun h i j => ?_, fun i h j => ?_⟩
  · exact Real.sqrt_pos.mpr (mul_pos (h i) (h j))
  · constructor <;> simp [krnDenom, h]

/-- Claim C10, witness: the guard theorem applied to the 1×1 identity
(positive diagonal) and to the 1×1 zero matrix (zero diagonal). -/
theorem kernel_row_normalize_no_guard_witness :
    (0 : ℝ) < krnDenom (1 : Matrix (Fin 1) (Fin 1) ℝ) 0 0 ∧
    krnDenom (0 : Matrix (Fin 1) (Fin 1) ℝ) 0 0 = 0 := by
  refine ⟨(kernel_row_normalize_no_guard (1 : Matrix (Fin 1) (Fin 1) ℝ)).2.1
      (fun i => by simp) 0 0,
    ((kernel_row_normalize_no_guard (0 : Matrix (Fin 1) (Fin 1) ℝ)).2.2 0 (by simp) 0).1⟩

/-- Monadic bind on a successful `Except` value. -/
@[simp] theorem exceptBind_ok {α β : Type} (a : α) (f : α → Except String β) :
    (Except.ok a >>= f : Except String β) = f a := rfl

/-- Monadic bind on a failed `Except` value. -/
@[simp] theorem exceptBind_err {α β : Type} (s : String) (f : α → Except String β) :
    ((Except.error s : Except String α) >>= f) = .error s := rfl

-- counterexample: three distinct groups crash on a shape mismatch
/-- Claim C3, counterexample: with the orthonormal basis `Q = I₃`, labels
`P = [0, 1, 2]` (three distinct kernel groups partitioning the columns),
response `y = e₀` and the positive constant penalty, `mkl_lars` does not
terminate with a converged path: its first residual update multiplies the
`(3, 2)` slice `Q[:, :t]` by a length-3 path row, a numpy shape error. -/
theorem mkl_lars_three_groups_cex :
    mkl_lars ⟨3, 3, fun i j => if i = j then 1 else 0⟩ [0, 1, 2]
      ⟨3, fun i => if i = 0 then 1 else 0⟩ (fun _ => 1) =
    .error "ValueError: shapes not aligned" := by
  have hfo : firstOccs [0, 1, 2] = [0, 1, 2] := by
    simp [firstOccs]
  have hm0 : maskIdx [0, 1, 2] 0 = [0] := rfl
  have hm1 : maskIdx [0, 1, 2] 1 = [1] := rfl
  have hc0 : countEq [0, 1, 2] 0 = 1 := rfl
  have hc1 : countEq [0, 1, 2] 1 = 1 := rfl
  simp only [mkl_lars, hfo]
  norm_num [mkl_lars_step, hm0, hm1, hc0, hc1, Mat.dotv, Mat.T, Mat.selectCols,
    Mat.firstCols, Vec.sqnorm, Vec.scale, List.foldlM, List.zip, List.zipWith,
    Finset.sum_range_succ]
  norm_num [show ((Finset.filter (fun x => 0 = [1][x]?.getD 0) ({0} : Finset ℕ)).card ≤ 1) from by decide]

/-- Successful matrix–vector product under matching shapes. -/
theorem dotv_ok (A : Mat) (v : Vec) (h : A.c = v.n) :
    A.dotv v = .ok ⟨A.r, fun i => ∑ t ∈ Finset.range A.c, A.f i t * v.f t⟩ := by
  rw [Mat.dotv, if_pos h]

/-- The positions of label `k` are as many as its occurrences. -/
theorem maskIdx_length (P : List ℕ) (k : ℕ) :
    (maskIdx P k).length = countEq P k := by
  induction P with
  | nil => rfl
  | cons x xs ih =>
    unfold maskIdx countEq at *
    rw [List.length_cons, List.range_succ_eq_map, List.filter_cons]
    simp only [List.getD_cons_zero, List.filter_map, Function.comp_def,
      List.getD_cons_succ, List.filter_cons]
    simp only [List.getD, List.get?_eq_getElem?] at ih
    by_cases hx : x = k
    · simp [hx, ih]
    · simp [hx, ih]

/-- Auxiliary induction for membership in the first-occurrence list. -/
theorem firstOccs_mem_aux :
    ∀ (n : ℕ) (l : List ℕ), l.length ≤ n → ∀ x, (x ∈ firstOccs l ↔ x ∈ l) := by
  intro n
  induction n with
  | zero =>
    intro l hl x
    cases l with
    | nil => simp [firstOccs]
    | cons a as => simp at hl
  | succ n ih =>
    intro l hl x
    cases l with
    | nil => simp [firstOccs]
    | cons a as =>
      rw [firstOccs]
      have hlen : (as.filter (· ≠ a)).length ≤ n :=
        le_trans (List.length_filter_le _ _) (Nat.succ_le_succ_iff.mp hl)
      constructor
      · intro hx
        rcases List.mem_cons.mp hx with h | h
        · exact h ▸ List.mem_cons_self a as
        · exact List.mem_cons_of_mem a
            (List.mem_of_mem_filter ((ih _ hlen x).mp h))
      · intro hx
        rcases List.mem_cons.mp hx with h | h
        · exact h ▸ List.mem_cons_self x _
        · by_cases hxa : x = a
          · exact hxa ▸ List.mem_cons_self a _
          · refine List.mem_cons_of_mem a ((ih _ hlen x).mpr ?_)
            exact List.mem_filter.mpr ⟨h, by simpa using hxa⟩

/-- The first-occurrence list has the same members as the original. -/
theorem firstOccs_mem (l : List ℕ) (x : ℕ) : x ∈ firstOccs l ↔ x ∈ l :=
  firstOccs_mem_aux l.length l le_rfl x

/-- A two-element first-occurrence list means two distinct labels that
exhaust the list. -/
theorem firstOccs_pair {P : List ℕ} {k0 k1 : ℕ} (h : firstOccs P = [k0, k1]) :
    k0 ≠ k1 ∧ ∀ p ∈ P, p = k0 ∨ p = k1 := by
  cases P with
  | nil => simp [firstOccs] at h
  | cons a as =>
    rw [firstOccs] at h
    obtain ⟨ha, hrest⟩ := List.cons_eq_cons.mp h
    subst ha
    have hk1mem : k1 ∈ as.filter (· ≠ a) := by
      have : k1 ∈ firstOccs (as.filter (· ≠ a)) := by rw [hrest]; simp
      exact (firstOccs_mem _ _).mp this
    have hk1ne : k1 ≠ a := by simpa using (List.mem_filter.mp hk1mem).2
    refine ⟨hk1ne.symm, ?_⟩
    intro p hp
    rcases List.mem_cons.mp hp with hpa | hpas
    · exact Or.inl hpa
    · by_cases hpa : p = a
      · exact Or.inl hpa
      · right
        have : p ∈ firstOccs (as.filter (· ≠ a)) :=
          (firstOccs_mem _ _).mpr
            (List.mem_filter.mpr ⟨hpas, by simpa using hpa⟩)
        rw [hrest] at this
        simpa using this

/-- Two distinct labels that exhaust a list account for its full length. -/
theorem countEq_pair {P : List ℕ} {k0 k1 : ℕ} (hne : k0 ≠ k1)
    (hall : ∀ p ∈ P, p = k0 ∨ p = k1) :
    countEq P k0 + countEq P k1 = P.length := by
  induction P with
  | nil => rfl
  | cons x xs ih =>
    have hx := hall x (List.mem_cons_self x xs)
    have ih' := ih (fun p hp => hall p (List.mem_cons_of_mem x hp))
    unfold countEq at *
    rcases hx with h | h <;> subst h <;>
      simp [List.filter_cons, hne, hne.symm] <;> omega

/-- A matrix with orthonormal columns annihilates the residual of the
least-squares jump: `Qᵀ(g - Q·Qᵀg) = 0` columnwise. -/
theorem ortho_cancel (Q : Mat)
    (hQ : ∀ j j', j < Q.c → j' < Q.c →
      (∑ i ∈ Finset.range Q.r, Q.f i j * Q.f i j') = if j = j' then 1 else 0)
    (g : ℕ → ℝ) (j : ℕ) (hj : j < Q.c) :
    (∑ i ∈ Finset.range Q.r, Q.f i j *
      (g i - ∑ t ∈ Finset.range Q.c, Q.f i t *
        (∑ i' ∈ Finset.range Q.r, Q.f i' t * g i'))) = 0 := by
  simp only [mul_sub]
  rw [Finset.sum_sub_distrib]
  have h2 : (∑ i ∈ Finset.range Q.r, Q.f i j * ∑ t ∈ Finset.range Q.c, Q.f i t *
      (∑ i' ∈ Finset.range Q.r, Q.f i' t * g i'))
      = ∑ t ∈ Finset.range Q.c, (∑ i ∈ Finset.range Q.r, Q.f i j * Q.f i t) *
        (∑ i' ∈ Finset.range Q.r, Q.f i' t * g i') := by
    calc (∑ i ∈ Finset.range Q.r, Q.f i j * ∑ t ∈ Finset.range Q.c, Q.f i t *
        (∑ i' ∈ Finset.range Q.r, Q.f i' t * g i'))
        = ∑ i ∈ Finset.range Q.r, ∑ t ∈ Finset.range Q.c, Q.f i j * (Q.f i t *
          (∑ i' ∈ Finset.range Q.r, Q.f i' t * g i')) := by
          simp_rw [Finset.mul_sum]
      _ = ∑ t ∈ Finset.range Q.c, ∑ i ∈ Finset.range Q.r, Q.f i j * (Q.f i t *
          (∑ i' ∈ Finset.range Q.r, Q.f i' t * g i')) := Finset.sum_comm
      _ = ∑ t ∈ Finset.range Q.c, (∑ i ∈ Finset.range Q.r, Q.f i j * Q.f i t) *
          (∑ i' ∈ Finset.range Q.r, Q.f i' t * g i') := by
          refine Finset.sum_congr rfl (fun t ht => ?_)
          rw [Finset.sum_mul]
          exact Finset.sum_congr rfl (fun i hi => by ring)
  have hrw : ∀ t ∈ Finset.range Q.c, (∑ i ∈ Finset.range Q.r, Q.f i j * Q.f i t) *
      (∑ i' ∈ Finset.range Q.r, Q.f i' t * g i') =
      (if j = t then 1 else 0) * (∑ i' ∈ Finset.range Q.r, Q.f i' t * g i') :=
    fun t ht => by rw [hQ j t hj (Finset.mem_range.mp ht)]
  have h3 : (∑ t ∈ Finset.range Q.c, (∑ i ∈ Finset.range Q.r, Q.f i j * Q.f i t) *
      (∑ i' ∈ Finset.range Q.r, Q.f i' t * g i'))
      = ∑ i' ∈ Finset.range Q.r, Q.f i' j * g i' := by
    rw [Finset.sum_congr rfl hrw]
    simp_rw [ite_mul, one_mul, zero_mul]
    rw [Finset.sum_ite_eq]
    simp [hj]
  rw [h2, h3, sub_self]

/-- The final `norm(Q.T.dot(r)) < 1e-3` assertion of `mkl_lars` holds
exactly after the least-squares jump from any residual. -/
theorem sqrt_orthosq_lt (Q : Mat)
    (hQ : ∀ j j', j < Q.c → j' < Q.c →
      (∑ i ∈ Finset.range Q.r, Q.f i j * Q.f i j') = if j = j' then 1 else 0)
    (g : ℕ → ℝ) :
    Real.sqrt (∑ x ∈ Finset.range Q.c, (∑ x1 ∈ Finset.range Q.r, Q.f x1 x *
      (g x1 - ∑ t ∈ Finset.range Q.c, Q.f x1 t *
        ∑ x2 ∈ Finset.range Q.r, Q.f x2 t * g x2)) ^ 2) < 1e-3 := by
  have hz : (∑ x ∈ Finset.range Q.c, (∑ x1 ∈ Finset.range Q.r, Q.f x1 x *
      (g x1 - ∑ t ∈ Finset.range Q.c, Q.f x1 t *
        ∑ x2 ∈ Finset.range Q.r, Q.f x2 t * g x2)) ^ 2) = 0 := by
    refine Finset.sum_eq_zero fun j hj => ?_
    rw [ortho_cancel Q hQ g j (Finset.mem_range.mp hj)]
    norm_num
  rw [hz, Real.sqrt_zero]
  norm_num

/-- Claim C3, amended: for `Q` with orthonormal columns, a nonempty label
vector `P` over Q's columns with at most two distinct labels, any response
`y` and positive penalty `f` whose `c2 ≤ c1` check passes, `mkl_lars`
returns a path with one row per distinct label and a fitted mean `mu` whose
residual satisfies `Qᵀ(y - mu) = 0` exactly (hence `‖Qᵀr‖ < 1e-3`).  With
three or more distinct labels the residual update is a shape error, so the
claim's unrestricted label vector had to be narrowed. -/
theorem mkl_lars_converges (Q : Mat) (P : List ℕ) (y : Vec) (f : ℕ → ℝ)
    (hy : y.n = Q.r) (hP : P.length = Q.c)
    (hQ : ∀ j j', j < Q.c → j' < Q.c →
      (∑ i ∈ Finset.range Q.r, Q.f i j * Q.f i j') = if j = j' then 1 else 0)
    (hf : ∀ p, 0 < f p)
    (hlen1 : 1 ≤ (firstOccs P).length) (hlen2 : (firstOccs P).length ≤ 2)
    (hcheck : ∀ k0 k1, firstOccs P = [k0, k1] →
      groupCorr Q P y k1 * f (countEq P k1) ≤ groupCorr Q P y k0 * f (countEq P k0)) :
    ∃ path mu, mkl_lars Q P y f = .ok (path, mu) ∧
      path.length = (firstOccs P).length ∧ mu.n = Q.r ∧
      ∀ j, j < Q.c → (∑ i ∈ Finset.range Q.r, Q.f i j * (y.f i - mu.f i)) = 0 := by
  obtain ⟨k0, rest, hk⟩ : ∃ k0 rest, firstOccs P = k0 :: rest := by
    cases hfo : firstOccs P with
    | nil => rw [hfo] at hlen1; simp at hlen1
    | cons a l => exact ⟨a, l, rfl⟩
  cases rest with
  | nil =>
    simp only [mkl_lars, hk]
    rw [show List.zip [k0] ([] : List ℕ) = [] from rfl]
    rw [List.foldlM_nil]
    simp only [pure_bind]
    simp only [dotv_ok, Mat.T, Vec.sub, hy, exceptBind_ok]
    have hz : (Vec.sqnorm ⟨Q.c, fun i => ∑ x ∈ Finset.range Q.r,
        Q.f x i * (y.f x - ∑ t ∈ Finset.range Q.c, Q.f x t *
          ∑ u ∈ Finset.range Q.r, Q.f u t * y.f u)⟩) = 0 := by
      rw [Vec.sqnorm]
      refine Finset.sum_eq_zero fun j hj => ?_
      show (∑ x ∈ Finset.range Q.r, Q.f x j * (y.f x -
        ∑ t ∈ Finset.range Q.c, Q.f x t *
          ∑ u ∈ Finset.range Q.r, Q.f u t * y.f u)) ^ 2 = 0
      rw [ortho_cancel Q hQ y.f j (Finset.mem_range.mp hj)]
      norm_num
    rw [hz, Real.sqrt_zero, if_pos (by norm_num : (0 : ℝ) < 1e-3)]
    refine ⟨_, _, rfl, by simp, rfl, fun j hj => ?_⟩
    simp only [Vec.add, zero_add]
    exact ortho_cancel Q hQ y.f j hj
  | cons k1 rest2 =>
    cases rest2 with
    | cons a l =>
      rw [hk] at hlen2
      simp at hlen2
    | nil =>
      obtain ⟨hne, hall⟩ := firstOccs_pair hk
      have htot : countEq P k0 + countEq P k1 = Q.c :=
        (countEq_pair hne hall).trans hP
      have hch := hcheck k0 k1 hk
      simp only [groupCorr] at hch
      simp only [mkl_lars, hk]
      rw [show List.zip [k0, k1] [k1] = [(k0, k1)] from rfl]
      rw [List.foldlM_cons]
      simp only [mkl_lars_step]
      simp only [dotv_ok, Mat.T, Mat.selectCols, Vec.sub, Vec.scale, Vec.sqnorm,
        Mat.firstCols, hy, maskIdx_length, htot, min_self, exceptBind_ok,
        List.foldlM_nil, pure_bind, hch, if_true]
      rw [if_pos (sqrt_orthosq_lt Q hQ (fun i => y.f i -
        ∑ t ∈ Finset.range Q.c, Q.f i t *
          ((1 - Real.sqrt ((∑ x ∈ Finset.range (countEq P k1),
              (∑ u ∈ Finset.range Q.r, Q.f u ((maskIdx P k1).getD x 0) * y.f u) ^ 2) *
                f (countEq P k1) /
              ((∑ x ∈ Finset.range (countEq P k0),
              (∑ u ∈ Finset.range Q.r, Q.f u ((maskIdx P k0).getD x 0) * y.f u) ^ 2) *
                f (countEq P k0)))) *
            ∑ u ∈ Finset.range Q.r, Q.f u t * y.f u)))]
      refine ⟨_, _, rfl, by simp, rfl, fun j hj => ?_⟩
      simp only [Vec.add, zero_add, sub_add_eq_sub_sub]
      exact ortho_cancel Q hQ (fun i => y.f i -
        ∑ t ∈ Finset.range Q.c, Q.f i t *
          ((1 - Real.sqrt ((∑ x ∈ Finset.range (countEq P k1),
              (∑ u ∈ Finset.range Q.r, Q.f u ((maskIdx P k1).getD x 0) * y.f u) ^ 2) *
                f (countEq P k1) /
              ((∑ x ∈ Finset.range (countEq P k0),
              (∑ u ∈ Finset.range Q.r, Q.f u ((maskIdx P k0).getD x 0) * y.f u) ^ 2) *
                f (countEq P k0)))) *
            ∑ u ∈ Finset.range Q.r, Q.f u t * y.f u)) j hj

/-- Claim C3, witness: the amended theorem applied to the 1×1 orthonormal
basis, a single kernel group and the constant penalty. -/
theorem mkl_lars_converges_witness :
    ∃ path mu, mkl_lars ⟨1, 1, fun _ _ => 1⟩ [0] ⟨1, fun _ => 1⟩ (fun _ => 1) =
      .ok (path, mu) := by
  obtain ⟨path, mu, h1, -, -, -⟩ :=
    mkl_lars_converges ⟨1, 1, fun _ _ => 1⟩ [0] ⟨1, fun _ => 1⟩ (fun _ => 1)
      rfl rfl
      (by
        intro j j' hj hj'
        have hj0 : j = 0 := Nat.lt_one_iff.mp hj
        have hj0' : j' = 0 := Nat.lt_one_iff.mp hj'
        subst hj0; subst hj0'
        simp)
      (fun p => one_pos)
      (by simp [firstOccs])
      (by simp [firstOccs])
      (by intro k0 k1 h; simp [firstOccs] at h)
  exact ⟨path, mu, h1⟩

/-- A successful monadic map preserves length. -/
theorem mapM_ok_length {α β : Type} (g : α → Except String β) :
    ∀ (l : List α) (ys : List β), l.mapM g = .ok ys → ys.length = l.length := by
  intro l
  induction l with
  | nil =>
    intro ys h
    rw [List.mapM_nil] at h
    have h2 : Except.ok ([] : List β) = Except.ok ys := h
    injection h2 with h3
    simp [← h3]
  | cons a as ih =>
    intro ys h
    rw [List.mapM_cons] at h
    cases ha : g a with
    | error e => rw [ha] at h; simp at h
    | ok b =>
      rw [ha] at h
      simp only [exceptBind_ok] at h
      cases has : as.mapM g with
      | error e => rw [has] at h; simp at h
      | ok bs =>
        rw [has] at h
        simp only [exceptBind_ok] at h
        have h2 : Except.ok (b :: bs) = Except.ok ys := h
        injection h2 with h3
        simp [← h3, ih bs has]

/-- The argmax scan returns the running best or an index it visited. -/
theorem npArgmaxAux_cases :
    ∀ (l : List NPF) (i best : ℕ) (bv : NPF),
      npArgmaxAux l i best bv = best ∨
      (i ≤ npArgmaxAux l i best bv ∧ npArgmaxAux l i best bv < i + l.length) := by
  intro l
  induction l with
  | nil => intro i best bv; left; rfl
  | cons a rest ih =>
    intro i best bv
    rw [npArgmaxAux]
    by_cases hlt : NPF.ltP bv a
    · rw [if_pos hlt]
      rcases ih (i + 1) i a with h | ⟨h1, h2⟩
      · right
        rw [h]
        simp only [List.length_cons]
        omega
      · right
        simp only [List.length_cons]
        omega
    · rw [if_neg hlt]
      rcases ih (i + 1) best bv with h | ⟨h1, h2⟩
      · left; exact h
      · right
        simp only [List.length_cons]
        omega

/-- The argmax of a nonempty array is in range. -/
theorem npArgmax_lt (l : List NPF) (hl : l ≠ []) : npArgmax l < l.length := by
  cases l with
  | nil => exact absurd rfl hl
  | cons a rest =>
    rw [npArgmax]
    rcases npArgmaxAux_cases rest 1 0 a with h | ⟨h1, h2⟩
    · rw [h]; simp
    · simp [List.length_cons]; omega

/-- The flattened gain matrix has one entry per kernel and sample. -/
theorem flattenGain_length (n : ℕ) (rows : List (ℕ → NPF)) :
    (flattenGain n rows).length = rows.length * n := by
  unfold flattenGain
  induction rows with
  | nil => simp
  | cons r rs ih => simp [List.flatMap_cons, ih, Nat.succ_mul]; omega

/-- Inversion of a successful `Except` bind. -/
theorem bind_eq_ok {α β : Type} {x : Except String α} {g : α → Except String β} {b : β}
    (h : (x >>= g) = .ok b) : ∃ a, x = .ok a ∧ g a = .ok b := by
  cases x with
  | error e => simp at h
  | ok a => exact ⟨a, rfl, by simpa using h⟩

/-- A continuing `mkl_qr` step preserves the master buffer shapes and the
cost-vector length, appends exactly one in-range kernel index to the pivot
history, and adds no other labels. -/
theorem mkl_qr_step_next_inv (ext : Externals) (Ks : List Mat) (y : Mat)
    (n delta : ℕ) (f : ℕ → ℝ) (st st' : QrState) (hk : Ks ≠ [])
    (h : mkl_qr_step ext Ks y n delta f st = .ok (.next st')) :
    st'.Q.r = st.Q.r ∧ st'.Q.c = st.Q.c ∧ st'.R.r = st.R.r ∧ st'.R.c = st.R.c ∧
    st'.cost.length = st.cost.length ∧
    st'.P.length = st.P.length + 1 ∧
    (∀ p ∈ st'.P, p ∈ st.P ∨ p < Ks.length) := by
  simp only [mkl_qr_step] at h
  obtain ⟨rows, hrows, h⟩ := bind_eq_ok h
  obtain ⟨QTY, hQTY, hrows2⟩ := bind_eq_ok (by
    simpa only [mkl_qr_gains] using hrows)
  have hrl : rows.length = Ks.length := by
    simpa using mapM_ok_length _ _ _ hrows2
  have hkern : npArgmax (flattenGain n rows) / n < Ks.length := by
    have hkpos : 0 < Ks.length := List.length_pos.mpr hk
    by_cases hflat : flattenGain n rows = []
    · rw [hflat, show npArgmax [] = 0 from rfl, Nat.zero_div]
      exact hkpos
    · have hq := npArgmax_lt _ hflat
      rw [flattenGain_length, hrl] at hq
      have hn : 0 < n := by
        rcases Nat.eq_zero_or_pos n with h0 | h0
        · exact absurd (List.eq_nil_of_length_eq_zero
            (by rw [flattenGain_length, h0, Nat.mul_zero])) hflat
        · exact h0
      exact (Nat.div_lt_iff_lt_mul hn).mpr hq
  split at h
  · exact absurd h (by simp)
  · split at h
    · simp at h
    · obtain ⟨QR, hqr, h⟩ := bind_eq_ok h
      split at h
      · split at h
        · simp only [Except.ok.injEq, StepOut.next.injEq] at h
          subst h
          refine ⟨rfl, rfl, rfl, rfl, by simp, by simp, ?_⟩
          intro p hp
          rcases List.mem_append.mp hp with hp1 | hp2
          · exact Or.inl hp1
          · right
            rw [List.mem_singleton.mp hp2]
            exact hkern
        · simp at h
      · simp at h

/-- The invariants of `mkl_qr_step_next_inv` compose over any number of
continuing steps. -/
theorem mkl_qr_advance_inv (ext : Externals) (Ks : List Mat) (y : Mat)
    (n delta : ℕ) (f : ℕ → ℝ) (hk : Ks ≠ []) :
    ∀ (s : ℕ) (st0 st : QrState),
      mkl_qr_advance ext Ks y n delta f s st0 = some st →
      st.Q.r = st0.Q.r ∧ st.Q.c = st0.Q.c ∧ st.R.r = st0.R.r ∧ st.R.c = st0.R.c ∧
      st.cost.length = st0.cost.length ∧
      st.P.length = st0.P.length + s ∧
      (∀ p ∈ st.P, p ∈ st0.P ∨ p < Ks.length) := by
  intro s
  induction s with
  | zero =>
    intro st0 st h
    rw [mkl_qr_advance] at h
    injection h with h2
    subst h2
    exact ⟨rfl, rfl, rfl, rfl, rfl, rfl, fun p hp => Or.inl hp⟩
  | succ m ih =>
    intro st0 st h
    rw [mkl_qr_advance] at h
    rcases hstep : mkl_qr_step ext Ks y n delta f st0 with e | out
    · rw [hstep] at h; simp at h
    · rw [hstep] at h
      cases out with
      | stop st1 => simp at h
      | next st1 =>
        simp only at h
        obtain ⟨hQr, hQc, hRr, hRc, hcost, hP, hmem⟩ :=
          mkl_qr_step_next_inv ext Ks y n delta f st0 st1 hk hstep
        obtain ⟨iQr, iQc, iRr, iRc, icost, iP, imem⟩ := ih st1 st h
        refine ⟨iQr.trans hQr, iQc.trans hQc, iRr.trans hRr, iRc.trans hRc,
          icost.trans hcost, by omega, ?_⟩
        intro p hp
        rcases imem p hp with h1 | h1
        · rcases hmem p h1 with h2 | h2
          · exact Or.inl h2
          · exact Or.inr h2
        · exact Or.inr h1

/-- If the selection loop reaches step `s < m` and stops there (zero
maximal gain), the loop returns that state with the premature-stop flag. -/
theorem mkl_qr_loop_of_stop (ext : Externals) (Ks : List Mat) (y : Mat)
    (n delta : ℕ) (f : ℕ → ℝ) :
    ∀ (s m : ℕ) (st0 st st' : QrState), s < m →
      mkl_qr_advance ext Ks y n delta f s st0 = some st →
      mkl_qr_step ext Ks y n delta f st = .ok (.stop st') →
      mkl_qr_loop ext Ks y n delta f m st0 = .ok (st', true) := by
  intro s
  induction s with
  | zero =>
    intro m st0 st st' hm hadv hstop
    rw [mkl_qr_advance] at hadv
    injection hadv with h2
    subst h2
    cases m with
    | zero => omega
    | succ m' =>
      rw [mkl_qr_loop, hstop]
  | succ u ih =>
    intro m st0 st st' hm hadv hstop
    rw [mkl_qr_advance] at hadv
    rcases hstep : mkl_qr_step ext Ks y n delta f st0 with e | out
    · rw [hstep] at hadv; simp at hadv
    · rw [hstep] at hadv
      cases out with
      | stop st1 => simp at hadv
      | next st1 =>
        simp only at hadv
        cases m with
        | zero => omega
        | succ m' =>
          rw [mkl_qr_loop, hstep]
          exact ih m' st1 st st' (by omega) hadv hstop

/-- Descending insertion permutes the inserted element in. -/
theorem insertDesc_perm (c : ℕ → ℝ) (i : ℕ) :
    ∀ l : List ℕ, (insertDesc c i l).Perm (i :: l) := by
  intro l
  induction l with
  | nil => rfl
  | cons j rest ih =>
    rw [insertDesc]
    split
    · rfl
    · exact (List.Perm.cons j ih).trans (List.Perm.swap i j rest)

/-- Folding descending insertions permutes the inputs. -/
theorem foldl_insertDesc_perm (c : ℕ → ℝ) :
    ∀ (l acc : List ℕ),
      (l.foldl (fun a j => insertDesc c j a) acc).Perm (acc ++ l) := by
  intro l
  induction l with
  | nil => intro acc; simp
  | cons x rest ih =>
    intro acc
    rw [List.foldl_cons]
    refine (ih (insertDesc c x acc)).trans ?_
    refine (List.Perm.append_right rest (insertDesc_perm c x acc)).trans ?_
    exact List.perm_middle.symm

/-- `np.argsort(-cost)` returns a permutation of all indices. -/
theorem argsortDesc_perm (xs : List ℝ) :
    (argsortDesc xs).Perm (List.range xs.length) := by
  unfold argsortDesc
  simpa using foldl_insertDesc_perm (fun t => xs.getD t 0) (List.range xs.length) []

/-- A mapped range sums to the corresponding finite sum. -/
theorem map_range_sum (g : ℕ → ℕ) :
    ∀ k : ℕ, ((List.range k).map g).sum = ∑ j ∈ Finset.range k, g j := by
  intro k
  induction k with
  | zero => simp
  | succ m ih => rw [List.range_succ, Finset.sum_range_succ, ← ih]; simp

/-- Occurrence counts over all in-range labels exhaust the list. -/
theorem sum_countEq (k : ℕ) :
    ∀ P : List ℕ, (∀ p ∈ P, p < k) →
      ∑ j ∈ Finset.range k, countEq P j = P.length := by
  intro P
  induction P with
  | nil => intro _; simp [countEq]
  | cons x xs ih =>
    intro hall
    have hx : x < k := hall x (List.mem_cons_self x xs)
    have ih' := ih (fun p hp => hall p (List.mem_cons_of_mem x hp))
    have hsplit : ∀ j, countEq (x :: xs) j = countEq xs j + if x = j then 1 else 0 := by
      intro j
      unfold countEq
      rw [List.filter_cons]
      by_cases hxj : x = j
      · simp [hxj]
      · simp [hxj]
    simp only [hsplit]
    rw [Finset.sum_add_distrib, ih', Finset.sum_ite_eq (Finset.range k) x (fun _ => 1)]
    simp [Finset.mem_range.mpr hx]

/-- The output column permutation of `mkl_qr` lists exactly the committed
columns: its length is the pivot-history length. -/
theorem porder_length (P : List ℕ) (cost : List ℝ) (k : ℕ)
    (hck : cost.length = k) (hall : ∀ p ∈ P, p < k) :
    ((argsortDesc cost).flatMap (fun j => maskIdx P j)).length = P.length := by
  rw [List.length_flatMap]
  have hcomp : (List.length ∘ fun j => maskIdx P j) = fun j => countEq P j := by
    funext j
    simp [Function.comp, maskIdx_length]
  rw [hcomp]
  have hperm : ((argsortDesc cost).map (fun j => countEq P j)).Perm
      ((List.range k).map (fun j => countEq P j)) := by
    refine List.Perm.map _ ?_
    rw [← hck]
    exact argsortDesc_perm cost
  rw [hperm.sum_eq, map_range_sum]
  exact sum_countEq k P hall

/-- Claim C5: if the selection loop of `mkl_qr` reaches some step
`s < rank` and the entry of the gain matrix selected by `argmax` there is
exactly 0, the loop stops without raising: the call returns successfully
with the non-fatal warning emitted, `Q` of shape `(n, s)`, `R` of shape
`(s, s)` and `P` of length `s`, for every choice of the (spec-modelled)
external factorization primitives. -/
theorem mkl_qr_gain_exhaustion (ext : Externals) (Ks : List Mat) (y : Mat)
    (rank delta : ℕ) (f : ℕ → ℝ) (K0 : Mat) (Krest : List Mat)
    (hKs : Ks = K0 :: Krest) (hd : delta ≠ 1) (s : ℕ) (hs : s < rank)
    (st : QrState)
    (hadv : mkl_qr_advance ext Ks y K0.r delta f s
      (mkl_qr_init ext Ks rank delta) = some st)
    (rows : List (ℕ → NPF))
    (hg : mkl_qr_gains Ks y delta f st = .ok rows)
    (hz : (flattenGain K0.r rows).getD (npArgmax (flattenGain K0.r rows)) NPF.nan =
      NPF.val 0) :
    ∃ Qf Rf Pf, mkl_qr ext Ks y rank delta f =
        .ok (Qf, Rf, Pf, ["Iterations ended prematurely"]) ∧
      Qf.r = K0.r ∧ Qf.c = s ∧ Rf.r = s ∧ Rf.c = s ∧ Pf.length = s := by
  subst hKs
  have hstop : mkl_qr_step ext (K0 :: Krest) y K0.r delta f st = .ok (.stop st) := by
    simp only [mkl_qr_step]
    rw [hg]
    simp only [exceptBind_ok]
    rw [if_pos hz]
  have hloop := mkl_qr_loop_of_stop ext (K0 :: Krest) y K0.r delta f s rank
    (mkl_qr_init ext (K0 :: Krest) rank delta) st st hs hadv hstop
  obtain ⟨hQr, hQc, hRr, hRc, hcost, hPlen, hPmem⟩ :=
    mkl_qr_advance_inv ext (K0 :: Krest) y K0.r delta f (by simp) s _ st hadv
  have hiP : (mkl_qr_init ext (K0 :: Krest) rank delta).P = [] := rfl
  have hPlen' : st.P.length = s := by rw [hPlen, hiP]; simp
  have hQc' : st.Q.c = rank + (K0 :: Krest).length * delta := by
    rw [hQc]; rfl
  have hRr' : st.R.r = rank + (K0 :: Krest).length * delta := by
    rw [hRr]; rfl
  have hRc' : st.R.c = rank + (K0 :: Krest).length * delta := by
    rw [hRc]; rfl
  have hcost' : st.cost.length = (K0 :: Krest).length := by
    rw [hcost]
    show (List.replicate (K0 :: Krest).length (0 : ℝ)).length = _
    simp
  have hPk : ∀ p ∈ st.P, p < (K0 :: Krest).length := by
    intro p hp
    rcases hPmem p hp with h1 | h1
    · rw [hiP] at h1; simp at h1
    · exact h1
  have hpord := porder_length st.P st.cost (K0 :: Krest).length hcost' hPk
  simp only [mkl_qr]
  rw [if_neg hd]
  simp only [hloop, if_true]
  rw [if_pos]
  · refine ⟨_, _, _, rfl, ?_, ?_, ?_, ?_, ?_⟩
    · show st.Q.r = K0.r
      rw [hQr]
      rfl
    · show min st.P.length st.Q.c = s
      rw [hPlen', hQc']
      omega
    · show min st.P.length st.R.r = s
      rw [hPlen', hRr']
      omega
    · show min st.P.length st.R.c = s
      rw [hPlen', hRc']
      omega
    · simp only [List.length_map]
      rw [hpord, hPlen']
  · exact hpord.symm

/-- Claim C5, witness: a single 1×1 zero kernel with `delta = 0` makes the
very first gain matrix identically zero, so `rank = 1` is truncated to 0
and the call returns empty factors with the warning. -/
theorem mkl_qr_gain_exhaustion_witness :
    ∃ Qf Rf Pf,
      mkl_qr ⟨fun _ G act ina _ _ _ => (G.f, act, ina),
              fun _ Q R _ _ _ => (Q.f, R.f),
              fun Q R _ _ => (Q.f, R.f),
              fun Q R _ => (Q.f, R.f)⟩
        [⟨1, 1, fun _ _ => 0⟩] ⟨1, 1, fun _ _ => 0⟩ 1 0 (fun _ => 1) =
        .ok (Qf, Rf, Pf, ["Iterations ended prematurely"]) ∧
      Qf.c = 0 ∧ Pf.length = 0 := by
  have hg : mkl_qr_gains [(⟨1, 1, fun _ _ => 0⟩ : Mat)] ⟨1, 1, fun _ _ => 0⟩ 0
      (fun _ => 1)
      (mkl_qr_init ⟨fun _ G act ina _ _ _ => (G.f, act, ina),
        fun _ Q R _ _ _ => (Q.f, R.f),
        fun Q R _ _ => (Q.f, R.f),
        fun Q R _ => (Q.f, R.f)⟩ [⟨1, 1, fun _ _ => 0⟩] 1 0) =
      .ok [fun i => if i ∈ ([] : List ℕ) then NPF.ninf
            else NPF.val ((0 : ℝ) - ∑ t ∈ Finset.range 1, (0 : ℝ) ^ 2)] := rfl
  have hz : ((flattenGain 1 [fun i => if i ∈ ([] : List ℕ) then NPF.ninf
        else NPF.val ((0 : ℝ) - ∑ t ∈ Finset.range 1, (0 : ℝ) ^ 2)]).getD
      (npArgmax (flattenGain 1 [fun i => if i ∈ ([] : List ℕ) then NPF.ninf
        else NPF.val ((0 : ℝ) - ∑ t ∈ Finset.range 1, (0 : ℝ) ^ 2)])) NPF.nan) =
      NPF.val 0 := by
    simp [flattenGain, npArgmax, npArgmaxAux, List.flatMap, List.range_succ]
  obtain ⟨Qf, Rf, Pf, h1, h2, h3, h4, h5, h6⟩ :=
    mkl_qr_gain_exhaustion _ _ _ 1 0 (fun _ => 1) ⟨1, 1, fun _ _ => 0⟩ [] rfl
      (by decide) 0 (by decide) _ rfl _ hg hz
  exact ⟨Qf, Rf, Pf, h1, h3, h6⟩
